import Mathlib

/-!
# Verification of the chat-export-to-PDF converter's text segmentation core

This development embeds, over `List Char`, the text-processing core of
`copilot_json_to_pdf.py`:

* `_escape_html`                         → `escapeHtml`
* `_process_message_content`             → `processMessageContent`
* `_extract_code_blocks_from_text`       → `extractCodeBlocksFromText`
* `_extract_code_blocks_from_response`   → `extractCodeBlocksFromResponse`
* `_get_code_blocks_from_metadata`       → `getCodeBlocksFromMetadata`
* the segment-reassembly loop and the response branch of `convert`
                                         → `segmentsOf`, `renderResponse`,
                                           `recordStep`, `convertGo`

Python strings are modelled as `List Char`; `re.finditer` scans are modelled
as left-to-right scanners.  The regex `\w` is modelled by ASCII alphanumerics
plus underscore (`isWordChar`); every concrete input used below is ASCII, and
no theorem depends on the extent of the word-character class.  Scanners that
consume a matched region (and hence do not recurse on a structural subterm)
are written with an explicit fuel argument initialised to the input length, so
that they evaluate by kernel reduction; the defining recurrences are recovered
as lemmas (`..._eq`).  Page layout, styles, spacers, page breaks and the
per-record "Message N" header are rendering geometry outside the segmentation
core and are not modelled.
-/

/-- The newline character. -/
def nlc : Char := Char.ofNat 10

/-- The backtick character. -/
def btick : Char := Char.ofNat 96

/-- The triple-backtick fence delimiter of the block regex. -/
def fence : List Char := [btick, btick, btick]

/-- The regex class `\w` (restricted to ASCII: letters, digits, underscore). -/
def isWordChar (c : Char) : Bool := c.isAlphanum || c == '_'

/-- Split off the maximal leading run of word characters (the greedy `\w*`
of the opening-fence regex). -/
def splitWordRun : List Char → List Char × List Char
  | [] => ([], [])
  | c :: cs =>
    if isWordChar c then
      match splitWordRun cs with
      | (run, rest) => (c :: run, rest)
    else ([], c :: cs)

/-- The lazy `(.*?)\n```` of the block regex: find the first position where a
newline immediately followed by a closing fence occurs; return the characters
before it and the remainder after the closing fence. -/
def findClose : List Char → Option (List Char × List Char)
  | [] => none
  | c :: cs =>
    if c == nlc && fence.isPrefixOf cs then some ([], cs.drop fence.length)
    else
      match findClose cs with
      | some (code, rest) => some (c :: code, rest)
      | none => none

/-- One attempt of the block regex ```` ```(\w*)\n(.*?)\n``` ```` (DOTALL) at
the head of the text: on success return the language tag, the verbatim code
text and the remainder after the match.  (Python additionally calls
`.strip()` on the language tag, which is the identity on a `\w*` capture.) -/
def tryMatch (l : List Char) : Option (List Char × List Char × List Char) :=
  if fence.isPrefixOf l then
    match splitWordRun (l.drop fence.length) with
    | (lang, rest1) =>
      match rest1 with
      | c :: rest2 =>
        if c == nlc then
          match findClose rest2 with
          | some (code, rest3) => some (lang, code, rest3)
          | none => none
        else none
      | [] => none
  else none

/-- An inline-extracted code block: the dict
`{id, code, language, source, start_pos, end_pos}` built by
`_extract_code_blocks_from_text` (the `id` string is `TEXT_<id>`). -/
structure CodeBlock where
  id : Nat
  code : List Char
  language : List Char
  source : List Char
  startPos : Nat
  endPos : Nat
  deriving Repr, DecidableEq

/-- Fuelled scanner behind `extractCodeBlocksFromText`: the `re.finditer`
loop, assigning sequential identifiers and recording half-open spans. -/
def extractGo : Nat → Nat → Nat → List Char → List CodeBlock
  | 0, _, _, _ => []
  | f + 1, counter, pos, l =>
    match tryMatch l with
    | some (lang, code, rest) =>
      { id := counter, code := code, language := lang,
        source := "text".data,
        startPos := pos,
        endPos := pos + (8 + lang.length + code.length) } ::
        extractGo f (counter + 1) (pos + (8 + lang.length + code.length)) rest
    | none =>
      match l with
      | [] => []
      | _ :: cs => extractGo f counter (pos + 1) cs

/-- `_extract_code_blocks_from_text`: scan `t` for fenced blocks, numbering
them from `counter` (the value of `self.code_counter` on entry). -/
def extractCodeBlocksFromText (counter : Nat) (t : List Char) : List CodeBlock :=
  extractGo t.length counter 0 t

/-- Decimal digit character for `d < 10`. -/
def digitChar (d : Nat) : Char := Char.ofNat (48 + d)

/-- Fuelled decimal representation. -/
def natDigitsGo : Nat → Nat → List Char
  | 0, _ => []
  | f + 1, n =>
    if n < 10 then [digitChar n]
    else natDigitsGo f (n / 10) ++ [digitChar (n % 10)]

/-- The decimal representation of `n` (the `{counter}` of the f-string
`TEXT_{counter}`), as a character list. -/
def natDigits (n : Nat) : List Char := natDigitsGo (n + 1) n

/-- The fixed prefix of a placeholder token, `[CODE_BLOCK_TEXT_`. -/
def phStart : List Char := "[CODE_BLOCK_TEXT_".data

/-- A placeholder-shaped string with an explicit digit part. -/
def phString (ds : List Char) : List Char := phStart ++ (ds ++ [']'])

/-- The placeholder token `[CODE_BLOCK_TEXT_<n>]` substituted for block `n`. -/
def placeholder (n : Nat) : List Char := phString (natDigits n)

/-- One step of the substitution loop of `_extract_code_blocks_from_response`:
`processed_text[:start] + placeholder + processed_text[end:]`. -/
def applySubst (text : List Char) (b : CodeBlock) : List Char :=
  text.take b.startPos ++ placeholder b.id ++ text.drop b.endPos

/-- The substitution loop: placeholders are spliced in from the last block to
the first (`for block in reversed(code_blocks)`). -/
def substitute (text : List Char) (blocks : List CodeBlock) : List Char :=
  blocks.reverse.foldl applySubst text

/-- The maximal leading run of decimal digits (the greedy `\d+` of the
placeholder regex). -/
def digitRun : List Char → List Char × List Char
  | [] => ([], [])
  | c :: cs =>
    if c.isDigit then
      match digitRun cs with
      | (run, rest) => (c :: run, rest)
    else ([], c :: cs)

/-- One attempt of the placeholder regex `\[CODE_BLOCK_(TEXT_\d+)\]` at the
head of the text: on success return the digit part of the captured identifier
and the remainder after the match. -/
def tryPlaceholder (l : List Char) : Option (List Char × List Char) :=
  if phStart.isPrefixOf l then
    match digitRun (l.drop phStart.length) with
    | (ds, r) =>
      match ds, r with
      | [], _ => none
      | _ :: _, c :: rest => if c == ']' then some (ds, rest) else none
      | _ :: _, [] => none
  else none

/-- A metadata-sourced code block: the dict built by
`_get_code_blocks_from_metadata` (the `id` string is `META_<id>`). -/
structure MetaCodeBlock where
  id : Nat
  code : List Char
  language : List Char
  source : List Char
  markdownBefore : List Char
  resource : Option (List Char)
  deriving Repr, DecidableEq

/-- A typed segment of the reassembled response (the dicts appended to
`segments` in `convert`; metadata-fallback blocks are modelled as their own
segment kind since they reference a `META_` block, never a `TEXT_` one). -/
inductive Segment where
  | text (s : List Char)
  | code (b : CodeBlock)
  | metaCode (b : MetaCodeBlock)
  deriving Repr, DecidableEq

/-- Fuelled scanner behind `segmentsOf`: the reassembly loop of `convert`.
`acc` holds (reversed) the characters accumulated since the previous
placeholder; a text segment is emitted only when it is non-empty, a
placeholder whose identifier is absent from the block map is consumed without
emitting anything. -/
def reassembleGo (B : List CodeBlock) : Nat → List Char → List Char → List Segment
  | 0, acc, _ => if acc.isEmpty then [] else [Segment.text acc.reverse]
  | f + 1, acc, l =>
    match l with
    | [] => if acc.isEmpty then [] else [Segment.text acc.reverse]
    | c :: cs =>
      match tryPlaceholder l with
      | some (ds, rest) =>
        (if acc.isEmpty then [] else [Segment.text acc.reverse]) ++
          (match B.find? (fun b => natDigits b.id == ds) with
           | some b => Segment.code b :: reassembleGo B f [] rest
           | none => reassembleGo B f [] rest)
      | none => reassembleGo B f (c :: acc) cs

/-- The reassembly loop of `convert` started with accumulated text `acc`. -/
def reassemble (B : List CodeBlock) (acc l : List Char) : List Segment :=
  reassembleGo B l.length acc l

/-- The ordered segment sequence `convert` builds from the
placeholder-bearing text and the inline block list. -/
def segmentsOf (B : List CodeBlock) (text : List Char) : List Segment :=
  reassemble B [] text

/-- Whether some suffix of `l` matches the placeholder regex. -/
def hasPH : List Char → Bool
  | [] => false
  | c :: cs => (tryPlaceholder (c :: cs)).isSome || hasPH cs

/-- `t` contains no occurrence of the placeholder pattern
`[CODE_BLOCK_TEXT_<digits>]`. -/
abbrev noPH (t : List Char) : Prop := hasPH t = false

/-- Whether some suffix of `l` matches the fenced-block regex. -/
def anyMatch : List Char → Bool
  | [] => false
  | c :: cs => (tryMatch (c :: cs)).isSome || anyMatch cs

/-- Whether `p` occurs as a contiguous substring of `l`. -/
def occurs (p : List Char) : List Char → Bool
  | [] => p.isEmpty
  | c :: cs => p.isPrefixOf (c :: cs) || occurs p cs

/-- The half-open sliceL `t[a:b]` (Python slicing clamps out-of-range ends). -/
def sliceL (t : List Char) (a b : Nat) : List Char := (t.drop a).take (b - a)

/-- The fenced source span a block of `extractCodeBlocksFromText` was
extracted from, rebuilt from its fields. -/
def reconstruct (b : CodeBlock) : List Char :=
  fence ++ b.language ++ nlc :: (b.code ++ nlc :: fence)

/-- Concatenate a segment sequence, text segments verbatim and code segments
replaced by their original source span `t0[start:end]`. -/
def concatS (t0 : List Char) : List Segment → List Char
  | [] => []
  | Segment.text s :: rest => s ++ concatS t0 rest
  | Segment.code b :: rest => sliceL t0 b.startPos b.endPos ++ concatS t0 rest
  | Segment.metaCode _ :: rest => concatS t0 rest

/-- Replace every occurrence of the character `c` by `rep` (one
`str.replace` call of `_escape_html`, all patterns being single characters,
or the final newline-to-`<br/>` rewrite). -/
def replaceChar (c : Char) (rep : List Char) (l : List Char) : List Char :=
  l.foldr (fun x acc => if x == c then rep ++ acc else x :: acc) []

/-- `_escape_html`: the five sequential replacements, in source order
(`&`, `<`, `>`, `"`, `'`). -/
def escapeHtml (l : List Char) : List Char :=
  replaceChar (Char.ofNat 39) "&#x27;".data
    (replaceChar (Char.ofNat 34) "&quot;".data
      (replaceChar '>' "&gt;".data
        (replaceChar '<' "&lt;".data
          (replaceChar '&' "&amp;".data l))))

/-- The lazy `(.*?)` before a closing delimiter in the bold/italic regexes
(no DOTALL, so the group cannot cross a newline): characters up to the first
occurrence of `close`, or failure at a newline or the end of input. -/
def findCloseInline (close : List Char) : List Char → Option (List Char × List Char)
  | [] => none
  | c :: cs =>
    if close.isPrefixOf (c :: cs) then some ([], (c :: cs).drop close.length)
    else if c == nlc then none
    else
      match findCloseInline close cs with
      | some (g, rest) => some (c :: g, rest)
      | none => none

/-- Fuelled scanner for one `re.sub` pass with a pattern of the shape
`opn(.*?)close` and replacement `pre\1post` (the bold and italic passes). -/
def subWrapGo (opn close pre post : List Char) : Nat → List Char → List Char
  | 0, _ => []
  | f + 1, l =>
    match l with
    | [] => []
    | c :: cs =>
      if opn.isPrefixOf l then
        match findCloseInline close (l.drop opn.length) with
        | some (g, rest) => pre ++ g ++ post ++ subWrapGo opn close pre post f rest
        | none => c :: subWrapGo opn close pre post f cs
      else c :: subWrapGo opn close pre post f cs

/-- One `re.sub` pass for `opn(.*?)close` → `pre\1post`. -/
def subWrap (opn close pre post l : List Char) : List Char :=
  subWrapGo opn close pre post l.length l

/-- Split at the first backtick (the greedy `[^`]+` of the inline-code
regex runs up to exactly the next backtick). -/
def splitTick : List Char → List Char × List Char
  | [] => ([], [])
  | c :: cs =>
    if c == btick then ([], c :: cs)
    else
      match splitTick cs with
      | (a, b) => (c :: a, b)

/-- Fuelled scanner for the inline-code pass
`` `([^`]+)` `` → `<font name="Courier">\1</font>`. -/
def subCodeGo : Nat → List Char → List Char
  | 0, _ => []
  | f + 1, l =>
    match l with
    | [] => []
    | c :: cs =>
      if c == btick then
        match splitTick cs with
        | (run, rest) =>
          match run, rest with
          | _ :: _, _ :: rest2 =>
            "<font name=\"Courier\">".data ++ run ++ "</font>".data ++ subCodeGo f rest2
          | _, _ => c :: subCodeGo f cs
      else c :: subCodeGo f cs

/-- The inline-code `re.sub` pass. -/
def subCode (l : List Char) : List Char := subCodeGo l.length l

/-- Split into lines at newline characters (for the `re.MULTILINE` header
passes, whose matches are anchored by `^`/`$` and cannot cross a newline). -/
def splitLines : List Char → List (List Char)
  | [] => [[]]
  | c :: cs =>
    match splitLines cs with
    | ls =>
      if c == nlc then [] :: ls
      else
        match ls with
        | [] => [[c]]
        | line :: ls2 => (c :: line) :: ls2

/-- One header `re.sub` pass `^hs(.*?)$` → `pre\1post` under `re.MULTILINE`:
a line-wise rewrite of lines starting with `hs`. -/
def subHeads (hs pre post : List Char) (l : List Char) : List Char :=
  List.intercalate [nlc]
    ((splitLines l).map
      (fun line => if hs.isPrefixOf line then pre ++ line.drop hs.length ++ post else line))

/-- `_process_message_content`: escape, then the fixed substitution chain
(bold, italic, inline code, headers from 4 hashes down to 1), then newlines
to `<br/>`. -/
def processMessageContent (content : List Char) : List Char :=
  if content.isEmpty then []
  else
    let c1 := escapeHtml content
    let c2 := subWrap "**".data "**".data "<b>".data "</b>".data c1
    let c3 := subWrap "*".data "*".data "<i>".data "</i>".data c2
    let c4 := subCode c3
    let c5 := subHeads "#### ".data "<font size=\"10\"><b>".data "</b></font>".data c4
    let c6 := subHeads "### ".data "<font size=\"11\"><b>".data "</b></font>".data c5
    let c7 := subHeads "## ".data "<font size=\"12\"><b>".data "</b></font>".data c6
    let c8 := subHeads "# ".data "<font size=\"14\"><b>".data "</b></font>".data c7
    replaceChar nlc "<br/>".data c8

/-- One response fragment: a JSON value that is a plain string, a dict (with
or without a `value` key, and with an optional `kind` tag), or anything
else. -/
inductive Fragment where
  | str (s : List Char)
  | dict (value : Option (List Char)) (kind : Option (List Char))
  | other
  deriving Repr, DecidableEq

/-- The contribution of one fragment to `full_text` in
`_extract_code_blocks_from_response`: a dict with a `value` key contributes
its value, a plain string contributes itself, anything else contributes
nothing. -/
def fragText : Fragment → List Char
  | Fragment.dict (some v) _ => v
  | Fragment.dict none _ => []
  | Fragment.str s => s
  | Fragment.other => []

/-- The `full_text` accumulation loop of `_extract_code_blocks_from_response`. -/
def fragsConcat (parts : List Fragment) : List Char :=
  parts.foldl (fun acc p => acc ++ fragText p) []

/-- `_extract_code_blocks_from_response`: concatenate the fragments, extract
inline blocks, and return the placeholder-substituted text with the blocks. -/
def extractCodeBlocksFromResponse (counter : Nat) (parts : List Fragment) :
    List Char × List CodeBlock :=
  let fullText := fragsConcat parts
  let blocks := extractCodeBlocksFromText counter fullText
  (substitute fullText blocks, blocks)

/-- One entry of `request.result.metadata.codeBlocks`. -/
structure MetaEntry where
  code : Option (List Char)
  language : Option (List Char)
  markdownBefore : Option (List Char)
  resource : Option (List Char)
  deriving Repr, DecidableEq

/-- The loop of `_get_code_blocks_from_metadata`: entries without a `code`
key are skipped, taken entries consume one counter value each. -/
def getMetaGo : Nat → List MetaEntry → List MetaCodeBlock
  | _, [] => []
  | n, e :: es =>
    match e.code with
    | some cd =>
      { id := n, code := cd, language := e.language.getD [],
        source := "metadata".data,
        markdownBefore := e.markdownBefore.getD [],
        resource := e.resource } :: getMetaGo (n + 1) es
    | none => getMetaGo n es

/-- `_get_code_blocks_from_metadata`: `none` models a request without the
`result.metadata.codeBlocks` path. -/
def getCodeBlocksFromMetadata (counter : Nat) (entries : Option (List MetaEntry)) :
    List MetaCodeBlock :=
  getMetaGo counter (entries.getD [])

/-- One request/response record, with the fields the segmentation core
reads: `message.text` (defaulted to empty), the `response` fragment list
(defaulted to empty), and the optional metadata code-block list. -/
structure Record where
  message : List Char
  response : List Fragment
  metaEntries : Option (List MetaEntry)
  deriving Repr, DecidableEq

/-- The response branch of `convert` for one record, at segment level: an
empty fragment list is skipped outright; otherwise inline extraction runs on
the concatenated text, and the reassembled segments are used when the
processed text is non-empty, the metadata blocks only otherwise.  (Mapping
over an empty metadata list yields `[]`, which coincides with the skipped
`elif metadata_code_blocks:` branch.) -/
def renderResponse (r : Record) : List Segment :=
  if r.response.isEmpty then []
  else
    let fullText := fragsConcat r.response
    let blocks := extractCodeBlocksFromText 0 fullText
    let text := substitute fullText blocks
    let metaBlocks := getCodeBlocksFromMetadata blocks.length r.metaEntries
    if text.isEmpty then metaBlocks.map Segment.metaCode
    else segmentsOf blocks text

/-- One iteration of the record loop of `convert`: `self.code_counter` is
set to `0` at the start of the body (the incoming counter value is never
read), and the final counter value is returned as the next state. -/
def recordStep (_counterIn : Nat) (r : Record) : List Segment × Nat :=
  if r.response.isEmpty then (renderResponse r, 0)
  else
    let blocks := extractCodeBlocksFromText 0 (fragsConcat r.response)
    let metaBlocks := getCodeBlocksFromMetadata blocks.length r.metaEntries
    (renderResponse r, blocks.length + metaBlocks.length)

/-- The record loop of `convert`, threading `self.code_counter` across
records and collecting each record's response segments. -/
def convertGo : Nat → List Record → List (List Segment)
  | _, [] => []
  | c, r :: rs =>
    match recordStep c r with
    | (segs, c2) => segs :: convertGo c2 rs

/-- A rendered story element the segmentation core produces: a styled
paragraph (markup text) or a code-block flowable. -/
inductive Item where
  | para (s : List Char)
  | codeFlow (code language : List Char)
  deriving Repr, DecidableEq

/-- Python whitespace as tested by `str.strip()` (ASCII). -/
def isSpaceChar (c : Char) : Bool :=
  c == ' ' || c == Char.ofNat 9 || c == nlc || c == Char.ofNat 13 ||
    c == Char.ofNat 11 || c == Char.ofNat 12

/-- `processed_text.strip()` is truthy: some character is not whitespace. -/
def hasInk (l : List Char) : Bool := l.any (fun c => !(isSpaceChar c))

/-- The user-message part of a record's output: a single paragraph through
`_process_message_content` when the message is non-empty, nothing otherwise. -/
def userItems (r : Record) : List Item :=
  if r.message.isEmpty then []
  else [Item.para ("<b>User:</b> ".data ++ processMessageContent r.message)]

/-- The rendering loop over reassembled segments: text segments become
paragraphs through `_process_message_content` (skipped when blank), code
segments become code-block flowables. -/
def segItems : List Segment → List Item
  | [] => []
  | Segment.text s :: rest =>
    (if hasInk (processMessageContent s) then [Item.para (processMessageContent s)] else []) ++
      segItems rest
  | Segment.code b :: rest => Item.codeFlow b.code b.language :: segItems rest
  | Segment.metaCode b :: rest => Item.codeFlow b.code b.language :: segItems rest

/-- The response part of a record's output at story level, with the
`Assistant:` intro paragraph. -/
def responseItems (r : Record) : List Item :=
  if r.response.isEmpty then []
  else
    let fullText := fragsConcat r.response
    let blocks := extractCodeBlocksFromText 0 fullText
    let text := substitute fullText blocks
    let metaBlocks := getCodeBlocksFromMetadata blocks.length r.metaEntries
    if !text.isEmpty then
      Item.para "<b>Assistant:</b>".data :: segItems (segmentsOf blocks text)
    else if !metaBlocks.isEmpty then
      Item.para "<b>Assistant:</b>".data ::
        metaBlocks.map (fun b => Item.codeFlow b.code b.language)
    else []

/-- The story elements one record contributes (headers, spacers and page
breaks are layout and not modelled). -/
def recordItems (r : Record) : List Item := userItems r ++ responseItems r

/-! ## Basic facts about the scanners -/

theorem isPrefixOf_eq_true {p l : List Char} :
    p.isPrefixOf l = true ↔ ∃ s, l = p ++ s := by
  induction p generalizing l with
  | nil => simp [List.isPrefixOf]
  | cons a p ih =>
    cases l with
    | nil => simp [List.isPrefixOf]
    | cons b l =>
      simp only [List.isPrefixOf, Bool.and_eq_true, beq_iff_eq, ih, List.cons_append,
        List.cons.injEq]
      constructor
      · rintro ⟨rfl, s, rfl⟩; exact ⟨s, rfl, rfl⟩
      · rintro ⟨s, rfl, rfl⟩; exact ⟨rfl, s, rfl⟩

theorem isPrefixOf_append (p s : List Char) : p.isPrefixOf (p ++ s) = true :=
  isPrefixOf_eq_true.2 ⟨s, rfl⟩

theorem splitWordRun_eq {s a b : List Char} (h : splitWordRun s = (a, b)) :
    s = a ++ b := by
  induction s generalizing a b with
  | nil => simp [splitWordRun] at h; simp [h.1, h.2]
  | cons c cs ih =>
    by_cases hw : isWordChar c = true
    · rcases hr : splitWordRun cs with ⟨a', b'⟩
      simp [splitWordRun, hw, hr] at h
      rcases h with ⟨rfl, rfl⟩
      simp [← ih hr]
    · simp [splitWordRun, hw] at h
      rcases h with ⟨rfl, rfl⟩
      simp

theorem findClose_some {z code rest : List Char} (h : findClose z = some (code, rest)) :
    z = code ++ nlc :: (fence ++ rest) := by
  induction z generalizing code rest with
  | nil => simp [findClose] at h
  | cons c cs ih =>
    by_cases hc : (c == nlc && fence.isPrefixOf cs) = true
    · simp [findClose, hc] at h
      rcases h with ⟨rfl, rfl⟩
      rcases Bool.and_eq_true_iff.1 hc with ⟨hc1, hc2⟩
      rcases isPrefixOf_eq_true.1 hc2 with ⟨s, rfl⟩
      simp [beq_iff_eq.1 hc1, List.drop_left]
    · rcases hr : findClose cs with _ | ⟨code', rest'⟩
      · simp [findClose, hc, hr] at h
      · simp [findClose, hc, hr] at h
        rcases h with ⟨rfl, rfl⟩
        simp [ih hr]

theorem tryMatch_some {l lang code rest : List Char}
    (h : tryMatch l = some (lang, code, rest)) :
    l = fence ++ lang ++ nlc :: (code ++ nlc :: (fence ++ rest)) := by
  unfold tryMatch at h
  by_cases hp : fence.isPrefixOf l = true
  · rcases isPrefixOf_eq_true.1 hp with ⟨s, rfl⟩
    rcases hw : splitWordRun ((fence ++ s).drop fence.length) with ⟨lang', rest1⟩
    rw [List.drop_left] at hw
    rcases rest1 with _ | ⟨c, rest2⟩
    · simp [hp, hw] at h
    · by_cases hcn : (c == nlc) = true
      · rcases hf : findClose rest2 with _ | ⟨code', rest3⟩
        · simp [hp, hw, hcn, hf] at h
        · simp [hp, hw, hcn, hf] at h
          rcases h with ⟨rfl, rfl, rfl⟩
          have := splitWordRun_eq hw
          have := findClose_some hf
          simp [beq_iff_eq.1 hcn] at *
          subst_vars
          simp
      · simp [hp, hw, hcn] at h
  · simp [hp] at h

theorem tryMatch_some_len {l lang code rest : List Char}
    (h : tryMatch l = some (lang, code, rest)) :
    l.length = 8 + lang.length + code.length + rest.length := by
  have := tryMatch_some h
  subst this
  simp [fence]
  omega

theorem tryMatch_rest_lt {l lang code rest : List Char}
    (h : tryMatch l = some (lang, code, rest)) : rest.length < l.length := by
  have := tryMatch_some_len h
  omega

/-- The extraction scan started at text offset `pos` (proof-side wrapper;
`extractCodeBlocksFromText counter t = extractB counter 0 t`). -/
def extractB (counter pos : Nat) (t : List Char) : List CodeBlock :=
  extractGo t.length counter pos t

theorem extractGo_fuel :
    ∀ f c p (t : List Char), t.length ≤ f → extractGo f c p t = extractGo t.length c p t := by
  intro f
  induction f using Nat.strong_induction_on with
  | _ f ih =>
    intro c p t ht
    cases t with
    | nil => cases f <;> rfl
    | cons a cs =>
      cases f with
      | zero => simp at ht
      | succ f =>
        have hcs : cs.length ≤ f := by simp at ht; omega
        rcases hm : tryMatch (a :: cs) with _ | ⟨lang, code, rest⟩
        · show extractGo (f + 1) c p (a :: cs) = extractGo (cs.length + 1) c p (a :: cs)
          simp only [extractGo, hm]
          rw [ih f (by omega) c (p + 1) cs hcs,
            ih cs.length (by omega) c (p + 1) cs (Nat.le_refl _)]
        · have hlen := tryMatch_some_len hm
          have hr1 : rest.length ≤ f := by simp at hlen; omega
          have hr2 : rest.length ≤ cs.length := by simp at hlen; omega
          show extractGo (f + 1) c p (a :: cs) = extractGo (cs.length + 1) c p (a :: cs)
          simp only [extractGo, hm]
          rw [ih f (by omega) (c + 1) _ rest hr1,
            ih cs.length (by omega) (c + 1) _ rest hr2]

theorem extractB_eq (c p : Nat) (t : List Char) :
    extractB c p t =
      match tryMatch t with
      | some (lang, code, rest) =>
        { id := c, code := code, language := lang, source := "text".data,
          startPos := p, endPos := p + (8 + lang.length + code.length) } ::
          extractB (c + 1) (p + (8 + lang.length + code.length)) rest
      | none =>
        match t with
        | [] => []
        | _ :: cs => extractB c (p + 1) cs := by
  rcases hm : tryMatch t with _ | ⟨lang, code, rest⟩
  · cases t with
    | nil => rfl
    | cons a cs =>
      show extractGo (cs.length + 1) c p (a :: cs) = _
      simp only [extractGo, hm]
      rfl
  · have hlen := tryMatch_some_len hm
    have ht : t.length = (t.length - 1) + 1 := by omega
    show extractGo t.length c p t = _
    rw [ht]
    simp only [extractGo, hm]
    rw [extractGo_fuel _ _ _ _ (by omega)]
    rfl

/-- Gap view of one scanner step: the characters before the first fenced
match of `t` (all of `t` when there is no match), together with the first
match's parts if any. -/
def parseGap : List Char → List Char × Option (List Char × List Char × List Char)
  | [] => ([], none)
  | c :: cs =>
    match tryMatch (c :: cs) with
    | some (lang, code, rest) => ([], some (lang, code, rest))
    | none =>
      match parseGap cs with
      | (g, o) => (c :: g, o)

theorem parseGap_none {t g : List Char}
    (h : parseGap t = (g, none)) : g = t := by
  induction t generalizing g with
  | nil => simp [parseGap] at h; simp [h]
  | cons c cs ih =>
    rcases hm : tryMatch (c :: cs) with _ | ⟨lang, code, rest⟩
    · rcases hp : parseGap cs with ⟨g', o⟩
      simp [parseGap, hm, hp] at h
      rcases h with ⟨rfl, rfl⟩
      simp [ih hp]
    · simp [parseGap, hm] at h

theorem parseGap_some {t g lang code rest : List Char}
    (h : parseGap t = (g, some (lang, code, rest))) :
    t = g ++ (fence ++ lang ++ nlc :: (code ++ nlc :: (fence ++ rest))) := by
  induction t generalizing g with
  | nil => simp [parseGap] at h
  | cons c cs ih =>
    rcases hm : tryMatch (c :: cs) with _ | ⟨lang', code', rest'⟩
    · rcases hp : parseGap cs with ⟨g', o⟩
      simp [parseGap, hm, hp] at h
      rcases h with ⟨rfl, rfl⟩
      simpa using ih hp
    · simp [parseGap, hm] at h
      rcases h with ⟨rfl, rfl, rfl, rfl⟩
      simpa using tryMatch_some hm

theorem parseGap_some_len {t g lang code rest : List Char}
    (h : parseGap t = (g, some (lang, code, rest))) :
    t.length = g.length + (8 + lang.length + code.length) + rest.length := by
  have := parseGap_some h
  subst this
  simp [fence]
  omega

theorem parseGap_some_extractB {t g lang code rest : List Char}
    (h : parseGap t = (g, some (lang, code, rest))) (c p : Nat) :
    extractB c p t =
      { id := c, code := code, language := lang, source := "text".data,
        startPos := p + g.length,
        endPos := p + g.length + (8 + lang.length + code.length) } ::
        extractB (c + 1) (p + g.length + (8 + lang.length + code.length)) rest := by
  induction t generalizing g p with
  | nil => simp [parseGap] at h
  | cons a cs ih =>
    rcases hm : tryMatch (a :: cs) with _ | ⟨lang', code', rest'⟩
    · rcases hp : parseGap cs with ⟨g', o⟩
      simp [parseGap, hm, hp] at h
      rcases h with ⟨rfl, rfl⟩
      rw [extractB_eq]
      simp only [hm]
      rw [ih hp (p + 1)]
      have e1 : p + 1 + g'.length = p + (g'.length + 1) := by omega
      simp [e1]
    · simp [parseGap, hm] at h
      rcases h with ⟨rfl, rfl, rfl, rfl⟩
      rw [extractB_eq]
      simp [hm]

theorem parseGap_none_extractB {t g : List Char}
    (h : parseGap t = (g, none)) (c p : Nat) :
    extractB c p t = [] := by
  induction t generalizing g p with
  | nil => rfl
  | cons a cs ih =>
    rcases hm : tryMatch (a :: cs) with _ | ⟨lang', code', rest'⟩
    · rcases hp : parseGap cs with ⟨g', o⟩
      simp [parseGap, hm, hp] at h
      rcases h with ⟨h1, rfl⟩
      rw [extractB_eq]
      simp only [hm]
      exact ih hp (p + 1)
    · simp [parseGap, hm] at h

/-- Fuelled form of the placeholder-substituted text (specification-side
view of what the reverse substitution loop produces). -/
def phFlatGo : Nat → Nat → List Char → List Char
  | 0, _, _ => []
  | f + 1, c, t =>
    match tryMatch t with
    | some (lang, code, rest) =>
      let _ := lang
      let _ := code
      placeholder c ++ phFlatGo f (c + 1) rest
    | none =>
      match t with
      | [] => []
      | ch :: cs => ch :: phFlatGo f c cs

/-- The placeholder-substituted text: gaps verbatim, each match replaced by
its placeholder token, numbering from `c`. -/
def phFlat (c : Nat) (t : List Char) : List Char := phFlatGo t.length c t

theorem phFlatGo_fuel :
    ∀ f c (t : List Char), t.length ≤ f → phFlatGo f c t = phFlatGo t.length c t := by
  intro f
  induction f using Nat.strong_induction_on with
  | _ f ih =>
    intro c t ht
    cases t with
    | nil => cases f <;> rfl
    | cons a cs =>
      cases f with
      | zero => simp at ht
      | succ f =>
        have hcs : cs.length ≤ f := by simp at ht; omega
        rcases hm : tryMatch (a :: cs) with _ | ⟨lang, code, rest⟩
        · show phFlatGo (f + 1) c (a :: cs) = phFlatGo (cs.length + 1) c (a :: cs)
          simp only [phFlatGo, hm]
          rw [ih f (by omega) c cs hcs, ih cs.length (by omega) c cs (Nat.le_refl _)]
        · have hlen := tryMatch_some_len hm
          have hr1 : rest.length ≤ f := by simp at hlen; omega
          have hr2 : rest.length ≤ cs.length := by simp at hlen; omega
          show phFlatGo (f + 1) c (a :: cs) = phFlatGo (cs.length + 1) c (a :: cs)
          simp only [phFlatGo, hm]
          rw [ih f (by omega) (c + 1) rest hr1, ih cs.length (by omega) (c + 1) rest hr2]

theorem phFlat_parseGap_some {t g lang code rest : List Char}
    (h : parseGap t = (g, some (lang, code, rest))) (c : Nat) :
    phFlat c t = g ++ placeholder c ++ phFlat (c + 1) rest := by
  induction t generalizing g with
  | nil => simp [parseGap] at h
  | cons a cs ih =>
    rcases hm : tryMatch (a :: cs) with _ | ⟨lang', code', rest'⟩
    · rcases hp : parseGap cs with ⟨g', o⟩
      simp [parseGap, hm, hp] at h
      rcases h with ⟨rfl, rfl⟩
      show phFlatGo (cs.length + 1) c (a :: cs) = _
      simp only [phFlatGo, hm]
      rw [phFlatGo_fuel _ _ _ (Nat.le_refl _)]
      rw [show phFlatGo cs.length c cs = phFlat c cs from rfl, ih hp]
      simp
    · simp [parseGap, hm] at h
      rcases h with ⟨rfl, rfl, rfl, rfl⟩
      have hlen := tryMatch_some_len hm
      show phFlatGo (cs.length + 1) c (a :: cs) = _
      simp only [phFlatGo, hm]
      rw [phFlatGo_fuel _ _ _ (by simp at hlen; omega)]
      simp
      rfl

theorem phFlat_parseGap_none {t g : List Char}
    (h : parseGap t = (g, none)) (c : Nat) :
    phFlat c t = t := by
  induction t generalizing g with
  | nil => rfl
  | cons a cs ih =>
    rcases hm : tryMatch (a :: cs) with _ | ⟨lang', code', rest'⟩
    · rcases hp : parseGap cs with ⟨g', o⟩
      simp [parseGap, hm, hp] at h
      rcases h with ⟨h1, rfl⟩
      show phFlatGo (cs.length + 1) c (a :: cs) = _
      simp only [phFlatGo, hm]
      rw [phFlatGo_fuel _ _ _ (Nat.le_refl _)]
      rw [show phFlatGo cs.length c cs = phFlat c cs from rfl, ih hp]
    · simp [parseGap, hm] at h

/-- Shift a block's span by `n` (positions of blocks found after skipping a
prefix of length `n`). -/
def shiftBy (n : Nat) (b : CodeBlock) : CodeBlock :=
  { b with startPos := b.startPos + n, endPos := b.endPos + n }

theorem shiftBy_shiftBy (p q : Nat) (b : CodeBlock) :
    shiftBy p (shiftBy q b) = shiftBy (q + p) b := by
  cases b
  simp [shiftBy]
  omega

theorem extractB_shift_aux :
    ∀ n (t : List Char), t.length = n →
      ∀ c p, extractB c p t = (extractB c 0 t).map (shiftBy p) := by
  intro n
  induction n using Nat.strong_induction_on with
  | _ n ih =>
    intro t hn c p
    rcases hp : parseGap t with ⟨g, o⟩
    rcases o with _ | ⟨⟨lang, ⟨code, rest⟩⟩⟩
    · rw [parseGap_none_extractB hp, parseGap_none_extractB hp]
      rfl
    · have hlen := parseGap_some_len hp
      rw [parseGap_some_extractB hp, parseGap_some_extractB hp]
      have hrest : rest.length < n := by omega
      rw [ih rest.length (by omega) rest rfl (c + 1) (p + g.length + (8 + lang.length + code.length)),
        ih rest.length (by omega) rest rfl (c + 1) (0 + g.length + (8 + lang.length + code.length))]

      simp only [List.map_cons, List.map_map]
      congr 1
      · simp [shiftBy]
        omega
      · apply List.map_congr_left
        intro b hb
        simp only [Function.comp_apply, shiftBy_shiftBy]
        congr 1
        omega

theorem extractB_shift (t : List Char) (c p : Nat) :
    extractB c p t = (extractB c 0 t).map (shiftBy p) :=
  extractB_shift_aux t.length t rfl c p

theorem substitute_nil (t : List Char) : substitute t [] = t := rfl

theorem substitute_cons (t : List Char) (b : CodeBlock) (bs : List CodeBlock) :
    substitute t (b :: bs) = applySubst (substitute t bs) b := by
  unfold substitute
  rw [List.reverse_cons, List.foldl_append]
  rfl

theorem shiftBy_id (n : Nat) (b : CodeBlock) : (shiftBy n b).id = b.id := rfl

theorem substitute_shift (pre s : List Char) (bs : List CodeBlock) :
    substitute (pre ++ s) (bs.map (shiftBy pre.length)) = pre ++ substitute s bs := by
  induction bs with
  | nil => rfl
  | cons b bs ih =>
    rw [List.map_cons, substitute_cons, ih, substitute_cons]
    unfold applySubst
    rw [shiftBy_id]
    have h1 : (shiftBy pre.length b).startPos = b.startPos + pre.length := rfl
    have h2 : (shiftBy pre.length b).endPos = b.endPos + pre.length := rfl
    rw [h1, h2, List.take_append_eq_append_take, List.drop_append_eq_append_drop,
      List.take_of_length_le (by omega), List.drop_eq_nil_of_le (by omega)]
    have e1 : b.startPos + pre.length - pre.length = b.startPos := by omega
    have e2 : b.endPos + pre.length - pre.length = b.endPos := by omega
    rw [e1, e2]
    simp

theorem applySubst_here (g M Z : List Char) (b : CodeBlock)
    (h1 : b.startPos = g.length) (h2 : b.endPos = g.length + M.length) :
    applySubst (g ++ (M ++ Z)) b = g ++ (placeholder b.id ++ Z) := by
  unfold applySubst
  rw [h1, h2, List.take_left,
    show g.length + M.length = (g ++ M).length by simp,
    show g ++ (M ++ Z) = (g ++ M) ++ Z from (List.append_assoc g M Z).symm,
    List.drop_left]
  simp

theorem substitute_extract_aux :
    ∀ n (t : List Char), t.length = n →
      ∀ c, substitute t (extractB c 0 t) = phFlat c t := by
  intro n
  induction n using Nat.strong_induction_on with
  | _ n ih =>
    intro t hn c
    rcases hp : parseGap t with ⟨g, o⟩
    rcases o with _ | ⟨⟨lang, ⟨code, rest⟩⟩⟩
    · rw [parseGap_none_extractB hp, substitute_nil, phFlat_parseGap_none hp]
    · have hlen := parseGap_some_len hp
      have hdec := parseGap_some hp
      have hlt : rest.length < n := by omega
      have hreM : t = (g ++ (fence ++ lang ++ nlc :: (code ++ nlc :: fence))) ++ rest := by
        rw [hdec]
        simp
      rw [phFlat_parseGap_some hp c]
      rw [parseGap_some_extractB hp, substitute_cons,
        extractB_shift rest (c + 1) (0 + g.length + (8 + lang.length + code.length))]
      have hPlen : 0 + g.length + (8 + lang.length + code.length)
          = (g ++ (fence ++ lang ++ nlc :: (code ++ nlc :: fence))).length := by
        simp [fence]
        omega
      rw [hPlen, hreM, substitute_shift, ih rest.length hlt rest rfl (c + 1),
        List.append_assoc g (fence ++ lang ++ nlc :: (code ++ nlc :: fence))
          (phFlat (c + 1) rest)]
      rw [applySubst_here]
      · simp
      · simp
      · simp

theorem substitute_extract (t : List Char) (c : Nat) :
    substitute t (extractB c 0 t) = phFlat c t :=
  substitute_extract_aux t.length t rfl c

theorem extractB_ids_aux :
    ∀ n (t : List Char), t.length = n → ∀ c p,
      (extractB c p t).map CodeBlock.id =
        List.range' c (extractB c p t).length := by
  intro n
  induction n using Nat.strong_induction_on with
  | _ n ih =>
    intro t hn c p
    rcases hp : parseGap t with ⟨g, o⟩
    rcases o with _ | ⟨⟨lang, ⟨code, rest⟩⟩⟩
    · rw [parseGap_none_extractB hp]
      rfl
    · have hlen := parseGap_some_len hp
      rw [parseGap_some_extractB hp]
      simp only [List.map_cons, List.length_cons]
      rw [ih rest.length (by omega) rest rfl (c + 1) _]
      rw [List.range'_succ]

/-- Identifier list of an extraction run: the consecutive range starting at
the incoming counter value. -/
theorem extractB_ids (t : List Char) (c p : Nat) :
    (extractB c p t).map CodeBlock.id = List.range' c (extractB c p t).length :=
  extractB_ids_aux t.length t rfl c p

theorem extractB_slice_aux :
    ∀ n (t : List Char), t.length = n → ∀ c b,
      b ∈ extractB c 0 t →
        sliceL t b.startPos b.endPos = reconstruct b := by
  intro n
  induction n using Nat.strong_induction_on with
  | _ n ih =>
    intro t hn c b hb
    rcases hp : parseGap t with ⟨g, o⟩
    rcases o with _ | ⟨⟨lang, ⟨code, rest⟩⟩⟩
    · rw [parseGap_none_extractB hp] at hb
      simp at hb
    · have hlen := parseGap_some_len hp
      have hdec := parseGap_some hp
      have hreM : t = (g ++ (fence ++ lang ++ nlc :: (code ++ nlc :: fence))) ++ rest := by
        rw [hdec]
        simp
      rw [parseGap_some_extractB hp] at hb
      rcases List.mem_cons.1 hb with rfl | hb2
      · unfold sliceL reconstruct
        simp only []
        rw [hreM]
        have e0 : (0 : Nat) + g.length = g.length := by omega
        rw [e0]
        rw [show (g ++ (fence ++ lang ++ nlc :: (code ++ nlc :: fence))) ++ rest
              = g ++ ((fence ++ lang ++ nlc :: (code ++ nlc :: fence)) ++ rest) from
            List.append_assoc _ _ _]
        rw [show List.drop g.length
              (g ++ ((fence ++ lang ++ nlc :: (code ++ nlc :: fence)) ++ rest))
              = (fence ++ lang ++ nlc :: (code ++ nlc :: fence)) ++ rest from
            List.drop_left _ _]
        have e1 : g.length + (8 + lang.length + code.length) - g.length
            = (fence ++ lang ++ nlc :: (code ++ nlc :: fence)).length := by
          simp [fence]
          omega
        rw [e1, List.take_left]
      · rw [extractB_shift] at hb2
        rcases List.mem_map.1 hb2 with ⟨b0, hb0, rfl⟩
        have hs1 : (shiftBy (0 + g.length + (8 + lang.length + code.length)) b0).startPos
            = b0.startPos + (g.length + (8 + lang.length + code.length)) := by
          simp [shiftBy]
        have hs2 : (shiftBy (0 + g.length + (8 + lang.length + code.length)) b0).endPos
            = b0.endPos + (g.length + (8 + lang.length + code.length)) := by
          simp [shiftBy]
        have hrec : reconstruct (shiftBy (0 + g.length + (8 + lang.length + code.length)) b0)
            = reconstruct b0 := rfl
        rw [hrec]
        unfold sliceL
        rw [hs1, hs2, hreM]
        have hplen : (g ++ (fence ++ lang ++ nlc :: (code ++ nlc :: fence))).length
            = g.length + (8 + lang.length + code.length) := by
          simp [fence]
          omega
        rw [List.drop_append_eq_append_drop, hplen,
          List.drop_eq_nil_of_le (by omega)]
        have e2 : b0.startPos + (g.length + (8 + lang.length + code.length))
            - (g.length + (8 + lang.length + code.length)) = b0.startPos := by omega
        rw [e2, List.nil_append]
        have e3 : b0.endPos + (g.length + (8 + lang.length + code.length))
            - (b0.startPos + (g.length + (8 + lang.length + code.length)))
            = b0.endPos - b0.startPos := by omega
        rw [e3]
        exact ih rest.length (by omega) rest rfl (c + 1) b0 hb0

/-- Every extracted block's recorded span slices the scanned text to exactly
its fenced source form. -/
theorem extractB_slice (t : List Char) (c : Nat) {b : CodeBlock}
    (hb : b ∈ extractB c 0 t) :
    sliceL t b.startPos b.endPos = reconstruct b :=
  extractB_slice_aux t.length t rfl c b hb

/-- Spans are chained: each block starts no earlier than `p`, is non-empty,
and the next block starts no earlier than the previous block's end. -/
def SpansOk : Nat → List CodeBlock → Prop
  | _, [] => True
  | p, b :: bs => p ≤ b.startPos ∧ b.startPos < b.endPos ∧ SpansOk b.endPos bs

theorem extractB_spans_aux :
    ∀ n (t : List Char), t.length = n → ∀ c p, SpansOk p (extractB c p t) := by
  intro n
  induction n using Nat.strong_induction_on with
  | _ n ih =>
    intro t hn c p
    rcases hp : parseGap t with ⟨g, o⟩
    rcases o with _ | ⟨⟨lang, ⟨code, rest⟩⟩⟩
    · rw [parseGap_none_extractB hp]
      trivial
    · have hlen := parseGap_some_len hp
      rw [parseGap_some_extractB hp]
      refine ⟨?_, ?_, ?_⟩
      · show p ≤ p + g.length
        omega
      · show p + g.length < p + g.length + (8 + lang.length + code.length)
        omega
      · show SpansOk (p + g.length + (8 + lang.length + code.length)) _
        exact ih rest.length (by omega) rest rfl (c + 1) _

theorem extractB_spans (t : List Char) (c p : Nat) : SpansOk p (extractB c p t) :=
  extractB_spans_aux t.length t rfl c p

/-! ## Decimal identifiers and the placeholder regex -/

theorem natDigitsGo_fuel : ∀ (m : Nat), ∀ f, m < f → natDigitsGo f m = natDigits m := by
  intro m
  induction m using Nat.strong_induction_on with
  | _ m ih =>
    intro f hf
    cases f with
    | zero => omega
    | succ f =>
      by_cases h10 : m < 10
      · show natDigitsGo (f + 1) m = natDigitsGo (m + 1) m
        cases m with
        | zero => simp [natDigitsGo, h10]
        | succ m2 => simp [natDigitsGo, h10]
      · have hd : m / 10 < m := Nat.div_lt_self (by omega) (by omega)
        show natDigitsGo (f + 1) m = natDigitsGo (m + 1) m
        simp only [natDigitsGo, h10, if_false]
        rw [ih (m / 10) hd f (by omega), ih (m / 10) hd m (by omega)]

theorem natDigits_eq (n : Nat) :
    natDigits n =
      if n < 10 then [digitChar n]
      else natDigits (n / 10) ++ [digitChar (n % 10)] := by
  by_cases h10 : n < 10
  · simp [natDigits, natDigitsGo, h10]
  · have hd : n / 10 < n := Nat.div_lt_self (by omega) (by omega)
    show natDigitsGo (n + 1) n = _
    simp only [natDigitsGo, h10, if_false]
    rw [natDigitsGo_fuel (n / 10) n (by omega)]

theorem digitChar_isDigit {d : Nat} (h : d < 10) : (digitChar d).isDigit = true := by
  interval_cases d <;> decide

theorem digitChar_toNat {d : Nat} (h : d < 10) : (digitChar d).toNat = 48 + d := by
  interval_cases d <;> decide

theorem natDigits_digits (n : Nat) : ∀ c ∈ natDigits n, c.isDigit = true := by
  induction n using Nat.strong_induction_on with
  | _ n ih =>
    rw [natDigits_eq]
    by_cases h10 : n < 10
    · simp [h10]
      exact digitChar_isDigit h10
    · simp [h10]
      intro c hc
      rcases hc with hc | rfl
      · exact ih (n / 10) (Nat.div_lt_self (by omega) (by omega)) c hc
      · exact digitChar_isDigit (Nat.mod_lt _ (by omega))

theorem natDigits_ne_nil (n : Nat) : natDigits n ≠ [] := by
  rw [natDigits_eq]
  by_cases h10 : n < 10 <;> simp [h10]

/-- Parse a digit string back to a number. -/
def digitsVal (l : List Char) : Nat :=
  l.foldl (fun a c => 10 * a + (c.toNat - 48)) 0

theorem digitsVal_append_singleton (xs : List Char) (c : Char) :
    digitsVal (xs ++ [c]) = 10 * digitsVal xs + (c.toNat - 48) := by
  unfold digitsVal
  rw [List.foldl_append]
  rfl

theorem digitsVal_natDigits (n : Nat) : digitsVal (natDigits n) = n := by
  induction n using Nat.strong_induction_on with
  | _ n ih =>
    rw [natDigits_eq]
    by_cases h10 : n < 10
    · simp [h10, digitsVal, digitChar_toNat h10]
    · simp only [h10, if_false]
      rw [digitsVal_append_singleton,
        ih (n / 10) (Nat.div_lt_self (by omega) (by omega)),
        digitChar_toNat (Nat.mod_lt _ (by omega))]
      omega

theorem natDigits_inj {a b : Nat} (h : natDigits a = natDigits b) : a = b := by
  have := digitsVal_natDigits a
  rw [h, digitsVal_natDigits] at this
  omega

theorem digitRun_eq {l a b : List Char} (h : digitRun l = (a, b)) :
    l = a ++ b ∧ ∀ c ∈ a, c.isDigit = true := by
  induction l generalizing a b with
  | nil =>
    simp [digitRun] at h
    simp [h.1, h.2]
  | cons c cs ih =>
    by_cases hc : c.isDigit = true
    · rcases hr : digitRun cs with ⟨a', b'⟩
      simp [digitRun, hc, hr] at h
      rcases h with ⟨rfl, rfl⟩
      rcases ih hr with ⟨rfl, hdig⟩
      refine ⟨rfl, ?_⟩
      intro x hx
      rcases List.mem_cons.1 hx with rfl | hx2
      · exact hc
      · exact hdig x hx2
    · simp [digitRun, hc] at h
      rcases h with ⟨rfl, rfl⟩
      simp

theorem digitRun_exact {ds : List Char} (hd : ∀ c ∈ ds, c.isDigit = true)
    (X : List Char) : digitRun (ds ++ ']' :: X) = (ds, ']' :: X) := by
  induction ds with
  | nil => simp [digitRun]
  | cons d ds ih =>
    have hdd : d.isDigit = true := hd d (List.mem_cons_self _ _)
    have ih2 := ih (fun c hc => hd c (List.mem_cons_of_mem _ hc))
    simp [digitRun, hdd, ih2]

theorem tryPlaceholder_phString {ds : List Char} (hne : ds ≠ [])
    (hd : ∀ c ∈ ds, c.isDigit = true) (X : List Char) :
    tryPlaceholder (phString ds ++ X) = some (ds, X) := by
  unfold tryPlaceholder
  have h1 : phString ds ++ X = phStart ++ (ds ++ ']' :: X) := by
    simp [phString]
  rw [h1, isPrefixOf_append, if_pos rfl, List.drop_left, digitRun_exact hd X]
  rcases ds with _ | ⟨d, ds2⟩
  · exact absurd rfl hne
  · simp

theorem tryPlaceholder_some {l ds r : List Char}
    (h : tryPlaceholder l = some (ds, r)) :
    l = phString ds ++ r ∧ ds ≠ [] ∧ ∀ c ∈ ds, c.isDigit = true := by
  unfold tryPlaceholder at h
  by_cases hp : phStart.isPrefixOf l = true
  · rcases isPrefixOf_eq_true.1 hp with ⟨z, rfl⟩
    rw [List.drop_left] at h
    rcases hr : digitRun z with ⟨a, b⟩
    rw [if_pos hp, hr] at h
    rcases a with _ | ⟨d, a2⟩
    · simp at h
    · rcases b with _ | ⟨c2, b2⟩
      · simp at h
      · by_cases hc2 : (c2 == ']') = true
        · simp [hc2] at h
          rcases h with ⟨rfl, rfl⟩
          rcases digitRun_eq hr with ⟨rfl, hdig⟩
          refine ⟨?_, by simp, hdig⟩
          simp [phString, beq_iff_eq.1 hc2]
        · simp [hc2] at h
  · simp [hp] at h

theorem phStart_len : phStart.length = 17 := by decide

theorem tryPlaceholder_rest_lt {l ds r : List Char}
    (h : tryPlaceholder l = some (ds, r)) : r.length < l.length := by
  rcases tryPlaceholder_some h with ⟨rfl, hne, hd⟩
  simp [phString, phStart_len]
  omega

/-! ## The reassembly loop -/

theorem reassembleGo_fuel (B : List CodeBlock) :
    ∀ f acc (l : List Char), l.length ≤ f →
      reassembleGo B f acc l = reassembleGo B l.length acc l := by
  intro f
  induction f using Nat.strong_induction_on with
  | _ f ih =>
    intro acc l hl
    cases l with
    | nil => cases f <;> rfl
    | cons a cs =>
      cases f with
      | zero => simp at hl
      | succ f =>
        have hcs : cs.length ≤ f := by simp at hl; omega
        rcases hm : tryPlaceholder (a :: cs) with _ | ⟨ds, rest⟩
        · show reassembleGo B (f + 1) acc (a :: cs) = reassembleGo B (cs.length + 1) acc (a :: cs)
          simp only [reassembleGo, hm]
          rw [ih f (by omega) (a :: acc) cs hcs,
            ih cs.length (by omega) (a :: acc) cs (Nat.le_refl _)]
        · have hrl := tryPlaceholder_rest_lt hm
          have hr1 : rest.length ≤ f := by simp at hrl; omega
          have hr2 : rest.length ≤ cs.length := by simp at hrl; omega
          show reassembleGo B (f + 1) acc (a :: cs) = reassembleGo B (cs.length + 1) acc (a :: cs)
          simp only [reassembleGo, hm]
          rw [ih f (by omega) [] rest hr1, ih cs.length (by omega) [] rest hr2]

theorem reassemble_eq (B : List CodeBlock) (acc l : List Char) :
    reassemble B acc l =
      match l with
      | [] => if acc.isEmpty then [] else [Segment.text acc.reverse]
      | c :: cs =>
        match tryPlaceholder (c :: cs) with
        | some (ds, rest) =>
          (if acc.isEmpty then [] else [Segment.text acc.reverse]) ++
            (match B.find? (fun b => natDigits b.id == ds) with
             | some b => Segment.code b :: reassemble B [] rest
             | none => reassemble B [] rest)
        | none => reassemble B (c :: acc) cs := by
  cases l with
  | nil => rfl
  | cons a cs =>
    show reassembleGo B (cs.length + 1) acc (a :: cs) = _
    rcases hm : tryPlaceholder (a :: cs) with _ | ⟨ds, rest⟩
    · simp only [reassembleGo, hm]
      rfl
    · have hrl := tryPlaceholder_rest_lt hm
      simp only [reassembleGo, hm]
      rw [reassembleGo_fuel B cs.length [] rest (by simp at hrl; omega)]
      rfl

/-! ## Placeholder-free texts -/

theorem hasPH_append_right {a b : List Char}
    (h : hasPH (a ++ b) = false) : hasPH b = false := by
  induction a with
  | nil => exact h
  | cons c cs ih =>
    rw [List.cons_append] at h
    unfold hasPH at h
    exact ih (by simpa using (Bool.or_eq_false_iff.1 h).2)

theorem tryPlaceholder_nil : tryPlaceholder [] = none := by decide

theorem noPH_split {t u s : List Char} (h : noPH t) (he : t = u ++ s) :
    tryPlaceholder s = none := by
  have hs : hasPH s = false := hasPH_append_right (he ▸ h)
  cases s with
  | nil => exact tryPlaceholder_nil
  | cons c cs =>
    unfold hasPH at hs
    rcases Bool.or_eq_false_iff.1 hs with ⟨h1, _⟩
    exact Option.not_isSome_iff_eq_none.1 (by simp [h1])

/-! ## Concatenation of segments -/

theorem concatS_append (t0 : List Char) (A B : List Segment) :
    concatS t0 (A ++ B) = concatS t0 A ++ concatS t0 B := by
  induction A with
  | nil => rfl
  | cons s A ih =>
    cases s <;> simp [concatS, ih]

theorem concatS_pre (t0 : List Char) (a : List Char) :
    concatS t0 (if a.isEmpty then [] else [Segment.text a.reverse]) = a.reverse := by
  cases a with
  | nil => rfl
  | cons c cs => simp [concatS]

/-! ## Looking up a block by its identifier -/

theorem find_self {B : List CodeBlock} (hnd : (B.map CodeBlock.id).Nodup)
    {b : CodeBlock} (hb : b ∈ B) :
    B.find? (fun x => natDigits x.id == natDigits b.id) = some b := by
  induction B with
  | nil => simp at hb
  | cons a B ih =>
    rcases List.mem_cons.1 hb with rfl | hb2
    · exact List.find?_cons_of_pos _ (by simp)
    · have hne : a.id ≠ b.id := by
        intro he
        have : a.id ∈ B.map CodeBlock.id := he ▸ List.mem_map_of_mem _ hb2
        exact (List.nodup_cons.1 hnd).1 this
      rw [List.find?_cons_of_neg _ (by simp; exact fun hc => hne (natDigits_inj hc))]
      exact ih (List.nodup_cons.1 hnd).2 hb2

/-! ## A placeholder match cannot start strictly inside a gap and reach an
inserted placeholder: every character of a placeholder after its opening
bracket is not `[`. -/

theorem phString_head (ds : List Char) :
    phString ds = '[' :: ("CODE_BLOCK_TEXT_".data ++ (ds ++ [']'])) := by
  simp [phString, phStart]

theorem lbrack_not_mem {ds : List Char} (hd : ∀ c ∈ ds, c.isDigit = true) :
    '[' ∉ ("CODE_BLOCK_TEXT_".data ++ (ds ++ [']'])) := by
  intro hmem
  rcases List.mem_append.1 hmem with h1 | h2
  · exact absurd h1 (by decide)
  · rcases List.mem_append.1 h2 with h3 | h4
    · exact absurd (hd _ h3) (by decide)
    · simp at h4

theorem tryPlaceholder_gap {s : List Char} {n : Nat} {Y ds r : List Char}
    (h : tryPlaceholder (s ++ (placeholder n ++ Y)) = some (ds, r))
    (hs : s ≠ []) :
    ∃ s2, s = phString ds ++ s2 := by
  rcases tryPlaceholder_some h with ⟨hdec, hne, hd⟩
  rcases List.append_eq_append_iff.1 hdec with ⟨a, ha1, ha2⟩ | ⟨s2, hs2, _⟩
  · rcases a with _ | ⟨x, a2⟩
    · exact ⟨[], by simp [ha1]⟩
    · have hx : x = '[' := by
        rw [placeholder, phString_head, List.cons_append, List.cons_append] at ha2
        exact (List.cons.inj ha2).1.symm
      subst hx
      rcases s with _ | ⟨y, s3⟩
      · exact absurd rfl hs
      · rw [phString_head] at ha1
        simp only [List.cons_append, List.cons.injEq] at ha1
        rcases ha1 with ⟨hy, htail⟩
        have hmem : ('[' : Char) ∈ s3 ++ '[' :: a2 := by simp
        rw [← htail] at hmem
        simp at hmem
        exact absurd (hd _ hmem) (by decide)
  · exact ⟨s2, hs2⟩

theorem reassemble_cons_none (B : List CodeBlock) (acc : List Char) (c : Char)
    (cs : List Char) (h : tryPlaceholder (c :: cs) = none) :
    reassemble B acc (c :: cs) = reassemble B (c :: acc) cs := by
  show reassembleGo B (cs.length + 1) acc (c :: cs) = _
  simp only [reassembleGo, h]
  rfl

theorem reassemble_cons_some (B : List CodeBlock) (acc : List Char) (c : Char)
    (cs ds rest : List Char) (h : tryPlaceholder (c :: cs) = some (ds, rest)) :
    reassemble B acc (c :: cs) =
      (if acc.isEmpty then [] else [Segment.text acc.reverse]) ++
        (match B.find? (fun b => natDigits b.id == ds) with
         | some b => Segment.code b :: reassemble B [] rest
         | none => reassemble B [] rest) := by
  have hrl := tryPlaceholder_rest_lt h
  show reassembleGo B (cs.length + 1) acc (c :: cs) = _
  simp only [reassembleGo, h]
  rw [reassembleGo_fuel B cs.length [] rest (by simp at hrl; omega)]
  rfl

/-- Scanning a stretch on which the placeholder regex never fires just moves
it into the accumulator. -/
theorem reassemble_skip (B : List CodeBlock) :
    ∀ (g acc X : List Char),
      (∀ u s, g = u ++ s → s ≠ [] → tryPlaceholder (s ++ X) = none) →
      reassemble B acc (g ++ X) = reassemble B (g.reverse ++ acc) X := by
  intro g
  induction g with
  | nil => intro acc X _; simp
  | cons c g2 ih =>
    intro acc X hfail
    rw [List.cons_append]
    have h0 : tryPlaceholder (c :: (g2 ++ X)) = none := by
      have := hfail [] (c :: g2) rfl (by simp)
      simpa using this
    rw [reassemble_cons_none B acc c (g2 ++ X) h0,
      ih (c :: acc) X (fun u s hu hs => hfail (c :: u) s (by simp [hu]) hs)]
    simp

/-- Hitting an inserted placeholder: the accumulated text (if any) is
emitted, the block is looked up by its decimal identifier, and the scan
resumes after the token. -/
theorem reassemble_hit (B : List CodeBlock) (acc : List Char) (n : Nat) (Z : List Char) :
    reassemble B acc (placeholder n ++ Z) =
      (if acc.isEmpty then [] else [Segment.text acc.reverse]) ++
        (match B.find? (fun x => natDigits x.id == natDigits n) with
         | some b => Segment.code b :: reassemble B [] Z
         | none => reassemble B [] Z) := by
  have htp := tryPlaceholder_phString (natDigits_ne_nil n) (natDigits_digits n) Z
  rw [phString_head, List.cons_append] at htp
  rw [placeholder, phString_head, List.cons_append]
  rw [reassemble_cons_some B acc _ _ _ _ htp]

theorem concatS_code (t0 : List Char) (b : CodeBlock) (S : List Segment) :
    concatS t0 (Segment.code b :: S) = sliceL t0 b.startPos b.endPos ++ concatS t0 S := rfl

/-- Reassembling the placeholder-substituted form of a placeholder-free text
(with a block table that resolves each inserted identifier to its source
span) concatenates back to the text. -/
theorem reassemble_phFlat_aux :
    ∀ n (t : List Char), t.length = n →
      ∀ (t0 : List Char) (B : List CodeBlock) (c : Nat) (acc : List Char),
        noPH t →
        (∀ b2 ∈ extractB c 0 t,
          ∃ b, B.find? (fun x => natDigits x.id == natDigits b2.id) = some b ∧
            sliceL t0 b.startPos b.endPos = reconstruct b2) →
        concatS t0 (reassemble B acc (phFlat c t)) = acc.reverse ++ t := by
  intro n
  induction n using Nat.strong_induction_on with
  | _ n ih =>
    intro t hn t0 B c acc hno hfind
    rcases hp : parseGap t with ⟨g, o⟩
    rcases o with _ | ⟨⟨lang, ⟨code, rest⟩⟩⟩
    · rw [phFlat_parseGap_none hp]
      have hfail : ∀ u s, t = u ++ s → s ≠ [] →
          tryPlaceholder (s ++ ([] : List Char)) = none := by
        intro u s hu hs
        rw [List.append_nil]
        exact noPH_split hno hu
      have h1 := reassemble_skip B t acc [] hfail
      rw [List.append_nil] at h1
      rw [h1]
      rw [show reassemble B (t.reverse ++ acc) [] =
            (if (t.reverse ++ acc).isEmpty then []
             else [Segment.text (t.reverse ++ acc).reverse]) from rfl]
      rw [concatS_pre]
      simp
    · have hlen := parseGap_some_len hp
      have hdec := parseGap_some hp
      have hreM : t = (g ++ (fence ++ lang ++ nlc :: (code ++ nlc :: fence))) ++ rest := by
        rw [hdec]
        simp
      rw [phFlat_parseGap_some hp c, List.append_assoc]
      have hfail : ∀ u s, g = u ++ s → s ≠ [] →
          tryPlaceholder (s ++ (placeholder c ++ phFlat (c + 1) rest)) = none := by
        intro u s hu hs
        by_contra hcon
        rcases Option.ne_none_iff_exists'.1 hcon with ⟨⟨ds, r⟩, hsome⟩
        rcases tryPlaceholder_gap hsome hs with ⟨s2, rfl⟩
        rcases tryPlaceholder_some hsome with ⟨_, hne, hd⟩
        have hsplit : t = u ++ ((phString ds ++ s2) ++
            ((fence ++ lang ++ nlc :: (code ++ nlc :: fence)) ++ rest)) := by
          rw [hreM, hu]
          simp
        have hnone := noPH_split hno hsplit
        rw [List.append_assoc, tryPlaceholder_phString hne hd] at hnone
        exact Option.some_ne_none _ hnone
      rw [reassemble_skip B g acc _ hfail, reassemble_hit]
      have hhead :
          ({ id := c, code := code, language := lang, source := "text".data,
             startPos := 0 + g.length,
             endPos := 0 + g.length + (8 + lang.length + code.length) } : CodeBlock)
            ∈ extractB c 0 t := by
        rw [parseGap_some_extractB hp]
        exact List.mem_cons_self _ _
      rcases hfind _ hhead with ⟨b, hfb, hslice⟩
      have hfb2 : B.find? (fun x => natDigits x.id == natDigits c) = some b := hfb
      have hsl2 : sliceL t0 b.startPos b.endPos
          = fence ++ lang ++ nlc :: (code ++ nlc :: fence) := hslice
      rw [hfb2]
      rw [concatS_append, concatS_pre, concatS_code, hsl2]
      have hnorest : noPH rest := by
        have h2 : hasPH ((g ++ (fence ++ lang ++ nlc :: (code ++ nlc :: fence))) ++ rest)
            = false := by rw [← hreM]; exact hno
        exact hasPH_append_right h2
      have hfind2 : ∀ b2 ∈ extractB (c + 1) 0 rest,
          ∃ b3, B.find? (fun x => natDigits x.id == natDigits b2.id) = some b3 ∧
            sliceL t0 b3.startPos b3.endPos = reconstruct b2 := by
        intro b2 hb2
        have hb2m : shiftBy (0 + g.length + (8 + lang.length + code.length)) b2
            ∈ extractB c 0 t := by
          rw [parseGap_some_extractB hp]
          refine List.mem_cons_of_mem _ ?_
          rw [extractB_shift]
          exact List.mem_map_of_mem _ hb2
        rcases hfind _ hb2m with ⟨b3, hfb3, hsl3⟩
        exact ⟨b3, hfb3, hsl3⟩
      have hIH := ih rest.length (by omega) rest rfl t0 B (c + 1) [] hnorest hfind2
      rw [hIH]
      rw [hreM]
      simp

/-! ## Helpers for the claim theorems -/

theorem extractB_nodup_ids (t : List Char) (c p : Nat) :
    ((extractB c p t).map CodeBlock.id).Nodup := by
  rw [extractB_ids]
  exact List.nodup_range' _ _

theorem phFlat_ne_nil {t : List Char} (h : t ≠ []) (c : Nat) : phFlat c t ≠ [] := by
  rcases hp : parseGap t with ⟨g, o⟩
  rcases o with _ | ⟨⟨lang, ⟨code, rest⟩⟩⟩
  · rw [phFlat_parseGap_none hp]
    exact h
  · rw [phFlat_parseGap_some hp]
    simp [placeholder, phString, phStart]

theorem reassemble_no_meta :
    ∀ n (l : List Char), l.length = n → ∀ (B : List CodeBlock) acc (mb : MetaCodeBlock),
      Segment.metaCode mb ∉ reassemble B acc l := by
  intro n
  induction n using Nat.strong_induction_on with
  | _ n ih =>
    intro l hn B acc mb hmem
    cases l with
    | nil =>
      rw [show reassemble B acc [] =
        (if acc.isEmpty then [] else [Segment.text acc.reverse]) from rfl] at hmem
      by_cases ha : acc.isEmpty <;> simp [ha] at hmem
    | cons a cs =>
      rcases hm : tryPlaceholder (a :: cs) with _ | ⟨ds, rest⟩
      · rw [reassemble_cons_none B acc a cs hm] at hmem
        exact ih cs.length (by simp [← hn]) cs rfl B (a :: acc) mb hmem
      · have hrl := tryPlaceholder_rest_lt hm
        have hrl2 : rest.length < cs.length + 1 := by simpa using hrl
        have hn2 : n = cs.length + 1 := by simp [← hn]
        rw [reassemble_cons_some B acc a cs ds rest hm] at hmem
        rcases List.mem_append.1 hmem with h1 | h2
        · by_cases ha : acc.isEmpty <;> simp [ha] at h1
        · rcases hf : B.find? (fun b => natDigits b.id == ds) with _ | b
          · rw [hf] at h2
            exact ih rest.length (by omega) rest rfl B [] mb h2
          · rw [hf] at h2
            rcases List.mem_cons.1 h2 with h3 | h4
            · simp at h3
            · exact ih rest.length (by omega) rest rfl B [] mb h4

theorem reassemble_code_mem :
    ∀ n (l : List Char), l.length = n → ∀ (B : List CodeBlock) acc (b : CodeBlock),
      Segment.code b ∈ reassemble B acc l → b ∈ B := by
  intro n
  induction n using Nat.strong_induction_on with
  | _ n ih =>
    intro l hn B acc b hmem
    cases l with
    | nil =>
      rw [show reassemble B acc [] =
        (if acc.isEmpty then [] else [Segment.text acc.reverse]) from rfl] at hmem
      by_cases ha : acc.isEmpty <;> simp [ha] at hmem
    | cons a cs =>
      rcases hm : tryPlaceholder (a :: cs) with _ | ⟨ds, rest⟩
      · rw [reassemble_cons_none B acc a cs hm] at hmem
        exact ih cs.length (by simp [← hn]) cs rfl B (a :: acc) b hmem
      · have hrl := tryPlaceholder_rest_lt hm
        have hrl2 : rest.length < cs.length + 1 := by simpa using hrl
        have hn2 : n = cs.length + 1 := by simp [← hn]
        rw [reassemble_cons_some B acc a cs ds rest hm] at hmem
        rcases List.mem_append.1 hmem with h1 | h2
        · by_cases ha : acc.isEmpty <;> simp [ha] at h1
        · rcases hf : B.find? (fun x => natDigits x.id == ds) with _ | b2
          · rw [hf] at h2
            exact ih rest.length (by omega) rest rfl B [] b h2
          · rw [hf] at h2
            rcases List.mem_cons.1 h2 with h3 | h4
            · rcases Segment.code.inj h3 with rfl
              exact List.mem_of_find?_eq_some hf
            · exact ih rest.length (by omega) rest rfl B [] b h4

theorem spansOk_start_le {p : Nat} {l : List CodeBlock} (h : SpansOk p l) :
    ∀ b ∈ l, p ≤ b.startPos := by
  induction l generalizing p with
  | nil => simp
  | cons a l ih =>
    rcases h with ⟨h1, h2, h3⟩
    intro b hb
    rcases List.mem_cons.1 hb with rfl | hb2
    · exact h1
    · exact le_trans (by omega) (ih h3 b hb2)

theorem spansOk_lt {p : Nat} {l : List CodeBlock} (h : SpansOk p l) :
    ∀ b ∈ l, b.startPos < b.endPos := by
  induction l generalizing p with
  | nil => simp
  | cons a l ih =>
    rcases h with ⟨h1, h2, h3⟩
    intro b hb
    rcases List.mem_cons.1 hb with rfl | hb2
    · exact h2
    · exact ih h3 b hb2

theorem spansOk_pairwise {p : Nat} {l : List CodeBlock} (h : SpansOk p l) :
    l.Pairwise (fun b1 b2 => b1.endPos ≤ b2.startPos) := by
  induction l generalizing p with
  | nil => exact List.Pairwise.nil
  | cons a l ih =>
    rcases h with ⟨h1, h2, h3⟩
    exact List.Pairwise.cons (spansOk_start_le h3) (ih h3)

theorem anyMatch_false_parseGap {t : List Char} (h : anyMatch t = false) :
    parseGap t = (t, none) := by
  induction t with
  | nil => rfl
  | cons c cs ih =>
    unfold anyMatch at h
    rcases Bool.or_eq_false_iff.1 h with ⟨h1, h2⟩
    have hm : tryMatch (c :: cs) = none := Option.not_isSome_iff_eq_none.1 (by simp [h1])
    show parseGap (c :: cs) = (c :: cs, none)
    unfold parseGap
    rw [hm, ih h2]

theorem occurs_ne_nil {p t : List Char} (h : occurs p t = true) (hp : p ≠ []) :
    t ≠ [] := by
  intro he
  subst he
  unfold occurs at h
  simp [List.isEmpty_iff] at h
  exact hp h

theorem replaceChar_id {c : Char} {rep l : List Char} (h : ∀ x ∈ l, x ≠ c) :
    replaceChar c rep l = l := by
  induction l with
  | nil => rfl
  | cons a l ih =>
    unfold replaceChar
    have ha : (a == c) = false := by
      simp
      exact h a (List.mem_cons_self _ _)
    simp only [List.foldr_cons, ha, if_false]
    have := ih (fun x hx => h x (List.mem_cons_of_mem _ hx))
    unfold replaceChar at this
    rw [this]
    simp

theorem fragsConcat_acc (a : List Char) (l : List Fragment) :
    l.foldl (fun acc p => acc ++ fragText p) a = a ++ fragsConcat l := by
  induction l generalizing a with
  | nil => simp [fragsConcat]
  | cons f l ih =>
    show l.foldl _ (a ++ fragText f) = _
    rw [ih]
    have h2 : fragsConcat (f :: l) = fragText f ++ fragsConcat l := by
      show l.foldl _ ([] ++ fragText f) = _
      rw [ih]
      simp
    rw [h2]
    simp

/-! ## Claim theorems -/

/-- C1 (amended): for every response-fragment list whose concatenated text
contains no occurrence of the placeholder pattern
`[CODE_BLOCK_TEXT_<digits>]`, extracting code blocks
(`_extract_code_blocks_from_response`) and reassembling segments, then
concatenating the segments in order (text verbatim, each code segment
replaced by its original fenced source span), yields the original
concatenated text. -/
theorem c1_roundtrip (parts : List Fragment) (h : noPH (fragsConcat parts)) :
    concatS (fragsConcat parts)
      (segmentsOf (extractCodeBlocksFromResponse 0 parts).2
        (extractCodeBlocksFromResponse 0 parts).1)
      = fragsConcat parts := by
  have h2 : (extractCodeBlocksFromResponse 0 parts).1
      = substitute (fragsConcat parts) (extractB 0 0 (fragsConcat parts)) := rfl
  show concatS (fragsConcat parts)
      (reassemble (extractB 0 0 (fragsConcat parts)) []
        (extractCodeBlocksFromResponse 0 parts).1)
      = fragsConcat parts
  rw [h2, substitute_extract]
  have hres := reassemble_phFlat_aux (fragsConcat parts).length (fragsConcat parts) rfl
      (fragsConcat parts) (extractB 0 0 (fragsConcat parts)) 0 [] h
      (fun b2 hb2 => ⟨b2, find_self (extractB_nodup_ids _ 0 0) hb2,
        extractB_slice _ 0 hb2⟩)
  simpa using hres

/-- C1 counterexample: a fragment list whose text is the literal string
`[CODE_BLOCK_TEXT_0]` contains zero well-formed fenced blocks, yet the
extraction/reassembly round trip does not reproduce it (the reassembly loop
consumes the token and drops it). -/
theorem c1_counterexample :
    concatS (fragsConcat [Fragment.str "[CODE_BLOCK_TEXT_0]".data])
      (segmentsOf (extractCodeBlocksFromResponse 0 [Fragment.str "[CODE_BLOCK_TEXT_0]".data]).2
        (extractCodeBlocksFromResponse 0 [Fragment.str "[CODE_BLOCK_TEXT_0]".data]).1)
      ≠ fragsConcat [Fragment.str "[CODE_BLOCK_TEXT_0]".data] := by
  decide

/-- C1 witness: the round trip evaluated on a concrete placeholder-free
fragment list. -/
theorem c1_witness :
    noPH (fragsConcat [Fragment.str "x ```py\na\n``` y".data]) ∧
    concatS (fragsConcat [Fragment.str "x ```py\na\n``` y".data])
      (segmentsOf (extractCodeBlocksFromResponse 0 [Fragment.str "x ```py\na\n``` y".data]).2
        (extractCodeBlocksFromResponse 0 [Fragment.str "x ```py\na\n``` y".data]).1)
      = fragsConcat [Fragment.str "x ```py\na\n``` y".data] :=
  ⟨by decide, c1_roundtrip [Fragment.str "x ```py\na\n``` y".data] (by decide)⟩

/-- C2 (amended): a placeholder token whose identifier is absent from the
block map is consumed and dropped by the reassembly loop — it contributes
nothing to the output (the surrounding text segments are still emitted) and
no error is raised. -/
theorem c2_missing_dropped (B : List CodeBlock) (acc ds X : List Char)
    (hne : ds ≠ []) (hd : ∀ c ∈ ds, c.isDigit = true)
    (hmiss : B.find? (fun x => natDigits x.id == ds) = none) :
    reassemble B acc (phString ds ++ X) =
      (if acc.isEmpty then [] else [Segment.text acc.reverse]) ++ reassemble B [] X := by
  have htp := tryPlaceholder_phString hne hd X
  rw [phString_head, List.cons_append] at htp
  rw [phString_head, List.cons_append,
    reassemble_cons_some B acc _ _ _ _ htp, hmiss]

/-- C2 counterexample: with an empty block map, the input
`x[CODE_BLOCK_TEXT_0]y` reassembles to the two text segments `x` and `y` —
the unresolved placeholder does not appear verbatim inside any text
segment of the output. -/
theorem c2_counterexample :
    segmentsOf ([] : List CodeBlock) "x[CODE_BLOCK_TEXT_0]y".data
      = [Segment.text "x".data, Segment.text "y".data] ∧
    occurs "[CODE_BLOCK_TEXT_0]".data "x".data = false ∧
    occurs "[CODE_BLOCK_TEXT_0]".data "y".data = false := by
  decide

/-- C2 witness: the dropped-placeholder lemma evaluated on a concrete
input. -/
theorem c2_witness :
    reassemble ([] : List CodeBlock) ['x'] (phString ['0'] ++ "y".data)
      = [Segment.text ['x']] ++ reassemble ([] : List CodeBlock) [] "y".data := by
  have h := c2_missing_dropped [] ['x'] ['0'] "y".data (by decide) (by decide) (by decide)
  simpa using h

/-- C3 (amended): when the response fragments concatenate to non-empty text,
the rendered response is exactly the reassembled segments of that text and
no metadata-sourced code block is rendered; the metadata fallback fires only
when the fragment list is non-empty but concatenates to empty text — then
exactly the metadata blocks are emitted (a record with an empty fragment
list renders nothing, regardless of metadata). -/
theorem c3_response_precedence :
    (∀ r : Record, fragsConcat r.response ≠ [] →
      renderResponse r
          = segmentsOf (extractCodeBlocksFromText 0 (fragsConcat r.response))
              (substitute (fragsConcat r.response)
                (extractCodeBlocksFromText 0 (fragsConcat r.response))) ∧
        ∀ mb : MetaCodeBlock, Segment.metaCode mb ∉ renderResponse r) ∧
    (∀ r : Record, r.response ≠ [] → fragsConcat r.response = [] →
      renderResponse r
        = (getCodeBlocksFromMetadata 0 r.metaEntries).map Segment.metaCode) := by
  constructor
  · intro r hne
    have hrne : r.response ≠ [] := by
      intro he
      exact hne (by rw [he]; rfl)
    have hrne2 : r.response.isEmpty = false := by
      simpa [List.isEmpty_iff] using hrne
    have htne : substitute (fragsConcat r.response)
        (extractCodeBlocksFromText 0 (fragsConcat r.response)) ≠ [] := by
      show substitute (fragsConcat r.response)
        (extractB 0 0 (fragsConcat r.response)) ≠ []
      rw [substitute_extract]
      exact phFlat_ne_nil hne 0
    have htne2 : (substitute (fragsConcat r.response)
        (extractCodeBlocksFromText 0 (fragsConcat r.response))).isEmpty = false := by
      simpa [List.isEmpty_iff] using htne
    have hr : renderResponse r
        = segmentsOf (extractCodeBlocksFromText 0 (fragsConcat r.response))
            (substitute (fragsConcat r.response)
              (extractCodeBlocksFromText 0 (fragsConcat r.response))) := by
      unfold renderResponse
      rw [hrne2]
      simp only [Bool.false_eq_true, if_false, htne2]
    refine ⟨hr, ?_⟩
    intro mb hmem
    rw [hr] at hmem
    exact reassemble_no_meta _ _ rfl _ _ mb hmem
  · intro r hrne hcat
    have hrne2 : r.response.isEmpty = false := by
      simpa [List.isEmpty_iff] using hrne
    unfold renderResponse
    rw [hrne2]
    simp only [Bool.false_eq_true, if_false]
    rw [hcat]
    rfl

/-- C3 counterexample: a record with an empty response-fragment list (so its
response text is empty) and two metadata code blocks renders no segments at
all — the metadata blocks are not emitted. -/
theorem c3_counterexample :
    renderResponse
        { message := [], response := [],
          metaEntries := some
            [{ code := some ['a'], language := some "py".data,
               markdownBefore := none, resource := none },
             { code := some ['b'], language := none,
               markdownBefore := none, resource := none }] }
        = [] ∧
    getCodeBlocksFromMetadata 0
        (some
          [{ code := some ['a'], language := some "py".data,
             markdownBefore := none, resource := none },
           { code := some ['b'], language := none,
             markdownBefore := none, resource := none }])
        ≠ [] := by
  decide

/-- C3 witness: both branches evaluated on concrete records. -/
theorem c3_witness :
    renderResponse { message := [], response := [Fragment.str "hi".data], metaEntries := none }
        = segmentsOf
            (extractCodeBlocksFromText 0
              (fragsConcat ([Fragment.str "hi".data] : List Fragment)))
            (substitute (fragsConcat ([Fragment.str "hi".data] : List Fragment))
              (extractCodeBlocksFromText 0
                (fragsConcat ([Fragment.str "hi".data] : List Fragment)))) ∧
    renderResponse
        { message := [], response := [Fragment.str []],
          metaEntries := some
            [{ code := some ['a'], language := none,
               markdownBefore := none, resource := none }] }
        = (getCodeBlocksFromMetadata 0
            (some
              [{ code := some ['a'], language := none,
                 markdownBefore := none, resource := none }])).map Segment.metaCode :=
  ⟨(c3_response_precedence.1
      { message := [], response := [Fragment.str "hi".data], metaEntries := none }
      (by decide)).1,
    c3_response_precedence.2
      { message := [], response := [Fragment.str []],
        metaEntries := some
          [{ code := some ['a'], language := none,
             markdownBefore := none, resource := none }] }
      (by decide) (by decide)⟩

/-- C4: on the input `"before ```py\nprint(1)\n``` after"`, extraction finds
exactly one block, of language `py` and code `print(1)`, and reassembly
yields exactly the text segment `"before "`, that code block, and the text
segment `" after"`, in that order. -/
theorem c4_scenario1 :
    extractCodeBlocksFromText 0 "before ```py\nprint(1)\n``` after".data
        = [{ id := 0, code := "print(1)".data, language := "py".data,
             source := "text".data, startPos := 7, endPos := 25 }] ∧
    segmentsOf (extractCodeBlocksFromText 0 "before ```py\nprint(1)\n``` after".data)
        (substitute "before ```py\nprint(1)\n``` after".data
          (extractCodeBlocksFromText 0 "before ```py\nprint(1)\n``` after".data))
        = [Segment.text "before ".data,
           Segment.code { id := 0, code := "print(1)".data, language := "py".data,
                          source := "text".data, startPos := 7, endPos := 25 },
           Segment.text " after".data] := by
  decide

/-- C5 (amended): for every text that contains a triple-backtick fence but on
which the fenced-block regex matches at no position (an unterminated fence),
and that contains no occurrence of the placeholder pattern, the extractor
returns zero blocks, the text is left untouched (dangling backticks
included), and reassembly yields a single text segment equal to the
original string. -/
theorem c5_unterminated (t : List Char) (h1 : occurs fence t = true)
    (h2 : anyMatch t = false) (h3 : noPH t) :
    extractCodeBlocksFromText 0 t = [] ∧
    substitute t (extractCodeBlocksFromText 0 t) = t ∧
    segmentsOf (extractCodeBlocksFromText 0 t)
        (substitute t (extractCodeBlocksFromText 0 t))
      = [Segment.text t] := by
  have hpg := anyMatch_false_parseGap h2
  have hext : extractCodeBlocksFromText 0 t = [] := parseGap_none_extractB hpg 0 0
  refine ⟨hext, by rw [hext]; rfl, ?_⟩
  rw [hext]
  show reassemble [] [] (substitute t []) = [Segment.text t]
  rw [substitute_nil]
  have hfail : ∀ u s, t = u ++ s → s ≠ [] →
      tryPlaceholder (s ++ ([] : List Char)) = none := by
    intro u s hu hs
    rw [List.append_nil]
    exact noPH_split h3 hu
  have hskip := reassemble_skip [] t [] [] hfail
  rw [List.append_nil] at hskip
  rw [hskip]
  have htne : t ≠ [] := occurs_ne_nil h1 (by decide)
  rw [show reassemble [] (t.reverse ++ []) [] =
      (if (t.reverse ++ []).isEmpty then []
       else [Segment.text (t.reverse ++ []).reverse]) from rfl]
  have hne2 : (t.reverse ++ []).isEmpty = false := by
    simp [List.isEmpty_iff, htne]
  rw [hne2]
  simp

/-- C5 counterexample: the text ``` ``` [CODE_BLOCK_TEXT_0] ``` contains an
opening fence with no closing fence and yields zero blocks, but reassembly
does not return a single text segment equal to the original string (the
placeholder-shaped substring is dropped). -/
theorem c5_counterexample :
    occurs fence "``` [CODE_BLOCK_TEXT_0]".data = true ∧
    extractCodeBlocksFromText 0 "``` [CODE_BLOCK_TEXT_0]".data = [] ∧
    segmentsOf (extractCodeBlocksFromText 0 "``` [CODE_BLOCK_TEXT_0]".data)
        (substitute "``` [CODE_BLOCK_TEXT_0]".data
          (extractCodeBlocksFromText 0 "``` [CODE_BLOCK_TEXT_0]".data))
      = [Segment.text "``` ".data] ∧
    [Segment.text "``` ".data]
      ≠ [Segment.text "``` [CODE_BLOCK_TEXT_0]".data] := by
  decide

/-- C5 witness: the unterminated-fence theorem evaluated on `"a ``` b"`. -/
theorem c5_witness :
    extractCodeBlocksFromText 0 "a ``` b".data = [] ∧
    substitute "a ``` b".data (extractCodeBlocksFromText 0 "a ``` b".data)
      = "a ``` b".data ∧
    segmentsOf (extractCodeBlocksFromText 0 "a ``` b".data)
        (substitute "a ``` b".data (extractCodeBlocksFromText 0 "a ``` b".data))
      = [Segment.text "a ``` b".data] :=
  c5_unterminated "a ``` b".data (by decide) (by decide) (by decide)

theorem recordStep_fst (cnt : Nat) (r : Record) :
    (recordStep cnt r).1 = renderResponse r := by
  unfold recordStep
  by_cases h : r.response.isEmpty <;> simp [h]

theorem renderResponse_code_mem {r : Record} {b : CodeBlock}
    (h : Segment.code b ∈ renderResponse r) :
    b ∈ extractCodeBlocksFromText 0 (fragsConcat r.response) := by
  unfold renderResponse at h
  by_cases hr : r.response.isEmpty
  · simp [hr] at h
  · simp only [hr, Bool.false_eq_true, if_false] at h
    by_cases ht : (substitute (fragsConcat r.response)
        (extractCodeBlocksFromText 0 (fragsConcat r.response))).isEmpty
    · rw [if_pos ht] at h
      rcases List.mem_map.1 h with ⟨mb, _, hmb⟩
      simp at hmb
    · rw [if_neg ht] at h
      exact reassemble_code_mem _ _ rfl _ _ b h

/-- C6: the per-record identifier counter is reset to zero at the start of
each record's processing: the output of the record loop is independent of
the incoming counter state (each record is processed as if the counter were
zero), and every inline code segment rendered for a record references a
block of that record's own extraction run. -/
theorem c6_counter_reset :
    (∀ (cnt : Nat) (rs : List Record),
      convertGo cnt rs = rs.map (fun r => (recordStep 0 r).1)) ∧
    (∀ (r : Record) (b : CodeBlock),
      Segment.code b ∈ (recordStep 0 r).1 →
      b ∈ extractCodeBlocksFromText 0 (fragsConcat r.response)) := by
  constructor
  · intro cnt rs
    induction rs generalizing cnt with
    | nil => rfl
    | cons r rs ih =>
      rcases hs : recordStep cnt r with ⟨segs, c2⟩
      have hs0 : recordStep 0 r = (segs, c2) := hs
      show (match recordStep cnt r with
        | (segs, c2) => segs :: convertGo c2 rs) = _
      rw [hs]
      simp only [List.map_cons, hs0, ih c2]
  · intro r b hmem
    rw [recordStep_fst] at hmem
    exact renderResponse_code_mem hmem

/-- C6 witness: a record processed with a non-zero incoming counter yields
the same output as with a zero counter, and its one code segment's block
belongs to its own extraction run. -/
theorem c6_witness :
    convertGo 7
        [{ message := [], response := [Fragment.str "x ```py\na\n``` y".data],
           metaEntries := none }]
      = [({ message := [], response := [Fragment.str "x ```py\na\n``` y".data],
            metaEntries := none } : Record)].map (fun r => (recordStep 0 r).1) ∧
    ({ id := 0, code := ['a'], language := "py".data, source := "text".data,
       startPos := 2, endPos := 13 } : CodeBlock)
      ∈ extractCodeBlocksFromText 0
          (fragsConcat [Fragment.str "x ```py\na\n``` y".data]) :=
  ⟨c6_counter_reset.1 7 _,
    c6_counter_reset.2
      { message := [], response := [Fragment.str "x ```py\na\n``` y".data],
        metaEntries := none }
      { id := 0, code := ['a'], language := "py".data, source := "text".data,
        startPos := 2, endPos := 13 }
      (by decide)⟩

/-- C7: for every input text and starting counter, the extracted blocks all
have non-empty spans, and the spans are pairwise non-overlapping in
left-to-right order (each block ends no later than the next begins). -/
theorem c7_spans (t : List Char) (c : Nat) :
    (∀ b ∈ extractCodeBlocksFromText c t, b.startPos < b.endPos) ∧
    List.Pairwise (fun b1 b2 => b1.endPos ≤ b2.startPos)
      (extractCodeBlocksFromText c t) := by
  have hs : SpansOk 0 (extractB c 0 t) := extractB_spans t c 0
  exact ⟨spansOk_lt hs, spansOk_pairwise hs⟩

/-- C7 witness: span facts evaluated on a concrete two-block input. -/
theorem c7_witness :
    (({ id := 0, code := ['a'], language := [], source := "text".data,
        startPos := 0, endPos := 9 } : CodeBlock).startPos
      < ({ id := 0, code := ['a'], language := [], source := "text".data,
           startPos := 0, endPos := 9 } : CodeBlock).endPos) ∧
    List.Pairwise (fun b1 b2 => b1.endPos ≤ b2.startPos)
      (extractCodeBlocksFromText 0 "```\na\n``` ```\nb\n```".data) :=
  ⟨(c7_spans "```\na\n``` ```\nb\n```".data 0).1
      { id := 0, code := ['a'], language := [], source := "text".data,
        startPos := 0, endPos := 9 }
      (by decide),
    (c7_spans "```\na\n``` ```\nb\n```".data 0).2⟩

/-- C8: `_escape_html` returns unchanged every string containing none of the
five markup-sensitive characters (`&`, `<`, `>`, double quote, single
quote). -/
theorem c8_escape_id (s : List Char)
    (h : ∀ c ∈ s, c ≠ '&' ∧ c ≠ '<' ∧ c ≠ '>' ∧ c ≠ Char.ofNat 34 ∧ c ≠ Char.ofNat 39) :
    escapeHtml s = s := by
  unfold escapeHtml
  rw [replaceChar_id (fun x hx => (h x hx).1),
    replaceChar_id (fun x hx => (h x hx).2.1),
    replaceChar_id (fun x hx => (h x hx).2.2.1),
    replaceChar_id (fun x hx => (h x hx).2.2.2.1),
    replaceChar_id (fun x hx => (h x hx).2.2.2.2)]

/-- C8 witness: escaping evaluated on a markup-free string. -/
theorem c8_witness : escapeHtml "hello world".data = "hello world".data :=
  c8_escape_id "hello world".data (by decide)

/-- C9: fragment concatenation is an append homomorphism; a dict fragment
with a `value` key contributes exactly its value whatever its `kind` tag is,
and a dict without a `value` key, or a fragment that is neither a string nor
a dict, contributes nothing. -/
theorem c9_fragments :
    (∀ l1 l2 : List Fragment, fragsConcat (l1 ++ l2) = fragsConcat l1 ++ fragsConcat l2) ∧
    (∀ (v : List Char) (k : Option (List Char)),
      fragsConcat [Fragment.dict (some v) k] = v) ∧
    (∀ k : Option (List Char), fragsConcat [Fragment.dict none k] = []) ∧
    fragsConcat [Fragment.other] = [] := by
  refine ⟨?_, fun v k => by simp [fragsConcat, fragText], fun k => rfl, rfl⟩
  intro l1 l2
  show (l1 ++ l2).foldl (fun acc p => acc ++ fragText p) [] = _
  rw [List.foldl_append, fragsConcat_acc]
  rfl

/-- C10: user-message rendering never produces a code-block flowable; a
record whose response is empty renders its (non-empty) message as exactly
one paragraph through `_process_message_content` — in particular, for a
message containing a fenced region, the fence is rendered as transformed
inline text, not as a code block. -/
theorem c10_user_message :
    (∀ (r : Record) (it : Item), it ∈ userItems r →
      ∀ cd lg : List Char, it ≠ Item.codeFlow cd lg) ∧
    (∀ msg : List Char, msg ≠ [] →
      recordItems { message := msg, response := [], metaEntries := none }
        = [Item.para ("<b>User:</b> ".data ++ processMessageContent msg)]) ∧
    recordItems { message := "a ```py\nx\n``` b".data, response := [], metaEntries := none }
      = [Item.para "<b>User:</b> a ``<font name=\"Courier\">py<br/>x<br/></font>`` b".data] := by
  refine ⟨?_, ?_, by decide⟩
  · intro r it hmem cd lg
    unfold userItems at hmem
    by_cases hm : r.message.isEmpty
    · simp [hm] at hmem
    · simp only [hm, Bool.false_eq_true, if_false, List.mem_singleton] at hmem
      subst hmem
      simp
  · intro msg hne
    have hm2 : (msg : List Char).isEmpty = false := by
      simpa [List.isEmpty_iff] using hne
    unfold recordItems userItems responseItems
    simp [hm2]

/-- C10 witness: the no-code-flowable fact and the single-paragraph fact
evaluated on concrete records. -/
theorem c10_witness :
    (Item.para ("<b>User:</b> ".data ++ processMessageContent "hi".data)
      ≠ Item.codeFlow "x".data []) ∧
    recordItems { message := "hi".data, response := [], metaEntries := none }
      = [Item.para ("<b>User:</b> ".data ++ processMessageContent "hi".data)] :=
  ⟨c10_user_message.1 { message := "hi".data, response := [], metaEntries := none }
      (Item.para ("<b>User:</b> ".data ++ processMessageContent "hi".data))
      (by decide) "x".data [],
    c10_user_message.2.1 "hi".data (by decide)⟩
